import Mathlib

/-!
Verification development for the PackFlow workflow engine
(`src/packflow/__init__.py`).

The embedding models the engine's own code.  Node handles are natural
numbers (reference identity, per the arena-handle modelling in the spec's
design notes); a node's user-supplied `prep`/`exec`/`post` phases are
opaque parameters.  Python `dict`s become insertion-ordered association
lists, and Python `set`s become duplicate-free lists whose iteration order
is determinized to insertion order (the source never relies on set
iteration order for any property proved here, except that intra-wave
execution order exists; where an order-dependent fact is proved on a
concrete input, the order used is the deterministic dict-iteration order
of the first wave).  Unbounded recursion in the source
(`_build_dependency_graph.add_dependency`, and the `while ready_nodes`
loop) is given an explicit fuel parameter; running out of fuel returns
`none` and models Python's `RecursionError` (the source has no guard
against cyclic successor graphs).
-/

set_option autoImplicit false

namespace PackFlow

/-- `action or "default"` on an `Optional[str]`: Python coerces both `None`
and the empty string (falsy) to `"default"`.  Used at
`__init__.py:158` (`action = action or "default"`) and
`__init__.py:107` (`action = action or "default"` in `get_next_nodes`). -/
def pyOr (a : Option String) : String :=
  match a with
  | none => "default"
  | some s => if s = "" then "default" else s

/-- First-match association-list lookup over `String` keys
(a Python `dict[str, list]` access). -/
def slookup (l : List (String × List Nat)) (a : String) : Option (List Nat) :=
  match l with
  | [] => none
  | (k, v) :: rest => if k = a then some v else slookup rest a

/-- `node.successors.get(action, [])` (`__init__.py:128`). -/
def sGet (succ : List (String × List Nat)) (a : String) : List Nat :=
  (slookup succ a).getD []

/-- `node.successors.keys()` (`__init__.py:125`), in dict insertion order. -/
def keysOf (succ : List (String × List Nat)) : List String :=
  succ.map Prod.fst

/-- First-match association-list lookup over `Nat` keys. -/
def alookup {β : Type} (l : List (Nat × β)) (n : Nat) : Option β :=
  match l with
  | [] => none
  | (k, v) :: rest => if k = n then some v else alookup rest n

/-- `m[n]` / `m.get(n, set())` for the dependency maps; missing keys give
the empty set.  (In the source, `dependencies[dependent]` at line 182 can
only be reached with the key present — every member of a reverse-dependency
set was given a `dependencies` entry at lines 133-134 — so the default is
never observable; `reverse_deps.get(node, set())` at line 181 defaults
explicitly.) -/
def getD (m : List (Nat × List Nat)) (n : Nat) : List Nat :=
  (alookup m n).getD []

/-- Python `set.add` on a set modelled as a duplicate-free list in
insertion order. -/
def setAdd (l : List Nat) (x : Nat) : List Nat :=
  if x ∈ l then l else l ++ [x]

/-- One graph node as the engine sees it: its successor table
(`self.successors`, a dict from action label to ordered successor list,
`__init__.py:8`) and the combined effect of running
`prep → _exec → post` on a fresh shallow copy of the node
(`__init__.py:153-157`): given the shared context it yields the updated
shared context and the action returned by `post`.  The per-run parameter
wiring (`set_params`, line 154) precedes `prep` and does not influence any
property proved here, so it is folded into `run`. -/
structure NodeDef (σ : Type) where
  successors : List (String × List Nat)
  run : σ → σ × Option String

/-- A wired node graph: nodes addressed by stable handles. -/
abbrev Graph (σ : Type) := Nat → NodeDef σ

/-! ### Node._exec — bounded retry with fallback (`__init__.py:71-79`) -/

/-- Instrumentation for one `Node._exec` call: how many times the `exec`
phase was invoked, how many times `time.sleep` was invoked, how many times
`exec_fallback` was invoked, and the exception passed to the fallback. -/
structure RetryTrace (E : Type) where
  execCalls : Nat
  sleeps : Nat
  fallbackCalls : Nat
  fallbackArg : Option E
  deriving Repr, DecidableEq

/-- The body of `for self.cur_retry in range(self.max_retries)`
(`__init__.py:72-79`), over the list of remaining `cur_retry` values.
`execf cur` is the outcome of the user `exec` phase on attempt `cur`
(`Except.error` models a raised exception); `fallback` is
`exec_fallback(prep_res, e)`.  An empty attempt list falls off the loop
and returns Python's implicit `None`, modelled as `Except.ok none`. -/
def nodeExecGo {P E R : Type} (maxRetries wait : Nat) (execf : Nat → Except E R)
    (fallback : P → E → Except E R) (p : P) :
    List Nat → RetryTrace E → Except E (Option R) × RetryTrace E
  | [], tr => (.ok none, tr)
  | cur :: rest, tr =>
    let tr1 : RetryTrace E := { tr with execCalls := tr.execCalls + 1 }
    match execf cur with
    | .ok v => (.ok (some v), tr1)
    | .error e =>
      if cur = maxRetries - 1 then
        ((fallback p e).map some,
         { tr1 with fallbackCalls := tr1.fallbackCalls + 1, fallbackArg := some e })
      else
        nodeExecGo maxRetries wait execf fallback p rest
          (if 0 < wait then { tr1 with sleeps := tr1.sleeps + 1 } else tr1)

/-- `Node._exec(prep_res)` (`__init__.py:71-79`): attempt `exec` up to
`max_retries` times over `cur_retry ∈ range(max_retries)`; on an exception
at the last attempt call `exec_fallback(prep_res, e)`; on an earlier
exception sleep `wait` seconds if `wait > 0` and retry. -/
def nodeExec {P E R : Type} (maxRetries wait : Nat) (execf : Nat → Except E R)
    (fallback : P → E → Except E R) (p : P) : Except E (Option R) × RetryTrace E :=
  nodeExecGo maxRetries wait execf fallback p (List.range maxRetries) ⟨0, 0, 0, none⟩

/-! ### BatchNode._exec (`__init__.py:91-93`) -/

/-- The list comprehension `[f(i) for i in items]` where `f` may raise:
items are evaluated left to right and the first exception aborts the
remaining elements. -/
def batchGo {I E R : Type} (f : I → Except E (Option R)) :
    List I → Except E (List (Option R))
  | [] => .ok []
  | i :: rest =>
    match f i with
    | .error e => .error e
    | .ok r =>
      match batchGo f rest with
      | .error e => .error e
      | .ok rs => .ok (r :: rs)

/-- `(items or [])` (`__init__.py:93`): `None` and the empty list are both
falsy and give `[]`; a non-empty list is unchanged — `Option.getD []`
agrees in all three cases. -/
def pyOrItems {I : Type} (items : Option (List I)) : List I :=
  items.getD []

/-- `BatchNode._exec(items)` (`__init__.py:92-93`):
`[super()._exec(i) for i in (items or [])]` — the per-element
execute-with-retry step `Node._exec` applied to each element in order.
The per-element prep result is the element itself, so `execf` and
`fallback` are indexed by the element. -/
def batchNodeExec {I E R : Type} (maxRetries wait : Nat)
    (execf : I → Nat → Except E R) (fallback : I → E → Except E R)
    (items : Option (List I)) : Except E (List (Option R)) :=
  batchGo (fun i => (nodeExec maxRetries wait (execf i) fallback i).1)
    (pyOrItems items)

/-! ### Flow.get_next_nodes (`__init__.py:105-113`) -/

/-- `Flow.get_next_nodes(curr, action)`: coerce the action with
`action or "default"`, look up `curr.successors.get(action, [])`, and warn
(`warnings.warn`, line 111) exactly when no successor is registered for the
action but the node has successors under other labels.  Returns the
successor list together with whether the warning was emitted.
No code path of `Flow._orch` or `Flow._build_dependency_graph` calls this
function. -/
def getNextNodes (successors : List (String × List Nat)) (action : Option String) :
    List Nat × Bool :=
  let a := pyOr action
  let nextNodes := sGet successors a
  (nextNodes, nextNodes.isEmpty && !successors.isEmpty)

/-! ### Flow._build_dependency_graph (`__init__.py:115-143`) -/

/-- The two run-scoped maps built by `_build_dependency_graph`
(`dependencies`, `reverse_deps`), plus `expandLog`: ghost instrumentation
recording, in order, the node argument of every `add_dependency`
invocation (each invocation enumerates that node's successor table once).
The ghost field influences nothing else. -/
structure DepState where
  deps : List (Nat × List Nat)
  rdeps : List (Nat × List Nat)
  expandLog : List Nat
  deriving Repr, DecidableEq

/-- `if node not in m: m[node] = set()` for one of the two maps. -/
def ensureKey (m : List (Nat × List Nat)) (n : Nat) : List (Nat × List Nat) :=
  if (alookup m n).isSome then m else m ++ [(n, [])]

/-- Lines 120-123 / 133-136: ensure `node` has entries in both maps. -/
def ensureNode (st : DepState) (n : Nat) : DepState :=
  { st with deps := ensureKey st.deps n, rdeps := ensureKey st.rdeps n }

/-- `m[k].add(x)`: add `x` to the set stored at key `k` (creating the key
if absent — on every state the source reaches, the key is already
present). -/
def addToEntry (m : List (Nat × List Nat)) (k x : Nat) : List (Nat × List Nat) :=
  match m with
  | [] => [(k, [x])]
  | (k', v) :: rest =>
    if k' = k then (k', setAdd v x) :: rest else (k', v) :: addToEntry rest k x

/-- Lines 137-138: `dependencies[succ].add(node)` and
`reverse_deps[node].add(succ)`. -/
def addEdge (st : DepState) (node succ : Nat) : DepState :=
  { st with deps := addToEntry st.deps succ node,
            rdeps := addToEntry st.rdeps node succ }

/-- The inner `for succ in successors` loop (lines 132-139): ensure the
successor's entries, record the edge, then recurse unconditionally via
`rec succ none` — the source has no visited-set check before the recursive
`add_dependency(succ)` call. -/
def expandSuccs (rec : Nat → Option String → DepState → Option DepState)
    (node : Nat) : List Nat → DepState → Option DepState
  | [], st => some st
  | succ :: rest, st =>
    match rec succ none (addEdge (ensureNode st succ) node succ) with
    | none => none
    | some st1 => expandSuccs rec node rest st1

/-- The outer `for curr_action in actions` loop (lines 127-139). -/
def expandActs {σ : Type} (g : Graph σ)
    (rec : Nat → Option String → DepState → Option DepState)
    (node : Nat) : List String → DepState → Option DepState
  | [], st => some st
  | a :: rest, st =>
    match expandSuccs rec node (sGet (g node).successors a) st with
    | none => none
    | some st1 => expandActs g rec node rest st1

/-- `add_dependency(node, action=None)` (`__init__.py:119-139`), with a
fuel parameter standing in for the call stack: `none` models Python's
`RecursionError` (the recursion has no cycle guard).  The node's entries
are ensured, then `actions = [action] if action else node.successors.keys()`
is enumerated; every successor under every enumerated label is linked and
recursively expanded.  The ghost `expandLog` records the invocation. -/
def addDependency {σ : Type} (g : Graph σ) :
    Nat → Nat → Option String → DepState → Option DepState
  | 0, _, _, _ => none
  | fuel + 1, node, action, st =>
    let st1 := ensureNode { st with expandLog := st.expandLog ++ [node] } node
    let acts :=
      match action with
      | some a => [a]
      | none => keysOf (g node).successors
    expandActs g (addDependency g fuel) node acts st1

/-- `Flow._build_dependency_graph(action_map)` (`__init__.py:115-143`):
start from empty maps and call `add_dependency(start, action_map.get(start))`.
`startAction` is `action_map.get(self.start_node)` (line 141). -/
def buildDependencyGraph {σ : Type} (g : Graph σ) (start : Nat)
    (startAction : Option String) (fuel : Nat) : Option DepState :=
  addDependency g fuel start startAction ⟨[], [], []⟩

/-- An edge of the successor tables under some action label:
`succ ∈ node.successors[a]` for some `a` present in the table. -/
def EdgeAny {σ : Type} (g : Graph σ) (x y : Nat) : Prop :=
  ∃ a ∈ keysOf (g x).successors, y ∈ sGet (g x).successors a

/-- Reachability (length ≥ 0) through successor edges under any label. -/
inductive Reaches {σ : Type} (g : Graph σ) : Nat → Nat → Prop
  | refl (x : Nat) : Reaches g x x
  | step {x y z : Nat} : EdgeAny g x y → Reaches g y z → Reaches g x z

/-- The node set the builder discovers beyond the start node: everything
reachable (under any label) from a successor of the start node under the
start node's actual action. -/
def Discovered {σ : Type} (g : Graph σ) (start : Nat) (a0 : String) (m : Nat) : Prop :=
  ∃ t ∈ sGet (g start).successors a0, Reaches g t m

/-! ### Flow._orch — the wave scheduler (`__init__.py:145-187`) -/

/-- Ghost record of one actual node execution inside a run:
the wave index (`0` is the start node's execution at line 162, the first
`while` iteration is wave `1`), the node, the `completed_nodes` set as the
wave began, the `completed_nodes` set at the moment of execution, and the
shared-context value handed to the node's phases. -/
structure ExecEvent (σ : Type) where
  wave : Nat
  node : Nat
  waveCompleted : List Nat
  completedBefore : List Nat
  sharedBefore : σ
  deriving Repr, DecidableEq

/-- The orchestration run state: the shared context, the run-scoped
`action_map` (insertion-ordered), the `completed_nodes` set, plus two ghost
fields: the execution trace and the warning diagnostics emitted so far.
No statement in `_orch`, `execute_node` or `_build_dependency_graph`
invokes `warnings.warn` (the only warning in `Flow` lives in
`get_next_nodes`, which `_orch` never calls), so no step of the model
appends to `warnings`. -/
structure RunState (σ : Type) where
  shared : σ
  actionMap : List (Nat × String)
  completed : List Nat
  events : List (ExecEvent σ)
  warnings : List String
  deriving Repr, DecidableEq

/-- `execute_node(node)` (`__init__.py:149-160`): skip silently when the
node is already in `action_map`; otherwise run the three-phase lifecycle
on a fresh shallow copy (`copy.copy`, `set_params`, `prep`, `_exec`,
`post`, folded into `NodeDef.run`), coerce the action with
`action or "default"`, and record it in `action_map`.  `wave` and `waveC`
only feed the ghost event. -/
def executeNode {σ : Type} (g : Graph σ) (wave : Nat) (waveC : List Nat)
    (n : Nat) (st : RunState σ) : RunState σ :=
  if (alookup st.actionMap n).isSome then st
  else
    let out := (g n).run st.shared
    { st with
      shared := out.1,
      actionMap := st.actionMap ++ [(n, pyOr out.2)],
      events := st.events ++ [⟨wave, n, waveC, st.completed, st.shared⟩] }

/-- One wave (`__init__.py:174-177`): `for node in ready_nodes: if node not
in completed_nodes: execute_node(node); completed_nodes.add(node)`.
`waveC` is the `completed_nodes` value captured when the wave began
(ghost). -/
def runWave {σ : Type} (g : Graph σ) (wave : Nat) (waveC : List Nat) :
    List Nat → RunState σ → RunState σ
  | [], st => st
  | n :: rest, st =>
    if n ∈ st.completed then runWave g wave waveC rest st
    else
      let st1 := executeNode g wave waveC n st
      runWave g wave waveC rest { st1 with completed := setAdd st1.completed n }

/-- Recomputing `ready_nodes` (`__init__.py:179-185`): scan every completed
node's reverse-dependents, keep those whose entire dependency set is
completed, then `list(set(ready_nodes) - completed_nodes)` — deduplicate
and drop completed nodes (set iteration determinized to first-occurrence
order). -/
def recomputeReady (deps rdeps : List (Nat × List Nat)) (completed : List Nat) :
    List Nat :=
  let collected := completed.foldl
    (fun acc n =>
      acc ++ (getD rdeps n).filter (fun d => (getD deps d).all (fun x => x ∈ completed)))
    []
  (collected.filter (fun n => n ∉ completed)).foldl setAdd []

/-- The initial `ready_nodes` (`__init__.py:169-171`): every key of
`dependencies` (dict-insertion order) whose dependency set is a subset of
`completed_nodes`. -/
def initialReady (deps : List (Nat × List Nat)) (completed : List Nat) : List Nat :=
  (deps.map Prod.fst).filter (fun n => (getD deps n).all (fun x => x ∈ completed))

/-- `while ready_nodes:` (`__init__.py:173-185`), fuelled.  Returns the
final state and whether the loop reached the empty-`ready` exit (rather
than exhausting fuel — the source loop in fact always terminates, since
every non-empty recomputed `ready` list is disjoint from `completed` and
each wave then strictly grows `completed`). -/
def waveLoop {σ : Type} (g : Graph σ) (deps rdeps : List (Nat × List Nat)) :
    Nat → Nat → List Nat → RunState σ → RunState σ × Bool
  | fuel, wave, ready, st =>
    if ready.isEmpty then (st, true)
    else
      match fuel with
      | 0 => (st, false)
      | fuel + 1 =>
        let st1 := runWave g wave st.completed ready st
        waveLoop g deps rdeps fuel (wave + 1)
          (recomputeReady deps rdeps st1.completed) st1

/-- Why a run aborted. -/
inductive OrchError where
  /-- `self.start_node` is `None`: `copy.copy(None).set_params(p)` raises
  `AttributeError` inside `execute_node` (line 154), before any node's
  `prep`/`exec`/`post` runs. -/
  | noStartNode
  /-- `add_dependency` exceeded the recursion budget
  (Python `RecursionError`; the build has no cycle guard). -/
  | buildRecursionLimit
  /-- The wave loop exceeded its fuel (never happens in the source; an
  artifact of the fuelled model). -/
  | loopFuelExhausted
  deriving Repr, DecidableEq

/-- A completed orchestration run: the final state, the dependency graph
built for the run, and `action_map.get(self.start_node)` (line 187). -/
structure OrchOk (σ : Type) where
  final : RunState σ
  dg : DepState
  result : Option String
  deriving Repr, DecidableEq

/-- `Flow._orch(shared)` (`__init__.py:145-187`): execute the start node,
set `completed_nodes = {start}`, build the dependency graph from the
action the start node actually returned, seed `ready_nodes`, run the wave
loop, and return the action recorded for the start node.  A `none` start
node fails at once (`AttributeError` in `execute_node`, line 154) with an
untouched state.  Errors carry the run state at the point of failure. -/
def orch {σ : Type} (g : Graph σ) (start : Option Nat) (shared : σ)
    (buildFuel loopFuel : Nat) : Except (OrchError × RunState σ) (OrchOk σ) :=
  match start with
  | none => .error (.noStartNode, ⟨shared, [], [], [], []⟩)
  | some s =>
    let st1 := executeNode g 0 [] s (⟨shared, [], [], [], []⟩ : RunState σ)
    let st2 := { st1 with completed := [s] }
    match buildDependencyGraph g s (alookup st2.actionMap s) buildFuel with
    | none => .error (.buildRecursionLimit, st2)
    | some dg =>
      let out := waveLoop g dg.deps dg.rdeps loopFuel 1
        (initialReady dg.deps st2.completed) st2
      if out.2 then .ok ⟨out.1, dg, alookup out.1.actionMap s⟩
      else .error (.loopFuelExhausted, out.1)

/-- `Flow._run(shared)` (`__init__.py:189-196`) with the default `Flow`
phases: `prep` is `BaseNode.prep` (a no-op returning `None`) and
`Flow.post` returns its `exec_res`, so the run entry point yields exactly
the orchestration result. -/
def flowRun {σ : Type} (g : Graph σ) (start : Option Nat) (shared : σ)
    (buildFuel loopFuel : Nat) : Except (OrchError × RunState σ) (Option String) :=
  (orch g start shared buildFuel loopFuel).map OrchOk.result

/-- The run state at the end of a run, whether it completed or aborted. -/
def orchFinal {σ : Type} (x : Except (OrchError × RunState σ) (OrchOk σ)) :
    RunState σ :=
  match x with
  | .ok r => r.final
  | .error e => e.2

/-- The overall action of a completed run (`none` if the run aborted). -/
def orchResultOf {σ : Type} (x : Except (OrchError × RunState σ) (OrchOk σ)) :
    Option (Option String) :=
  match x with
  | .ok r => some r.result
  | .error _ => none

/-! ### Concrete fixtures used by counterexamples and witnesses

The shared context is a `List Nat` write log: node `n`'s `post` appends
`n`, so "node `m` observed node `n`'s shared-context write" is
`n ∈ sharedBefore` of `m`'s event. -/

/-- A start node `0` whose `post` returns `"default"`, fanning out to two
independent sink nodes `1` and `2` (both therefore scheduled in the same
wave). -/
def exG1 : Graph (List Nat) := fun n =>
  match n with
  | 0 => ⟨[("default", [1, 2])], fun sh => (sh ++ [0], some "default")⟩
  | 1 => ⟨[], fun sh => (sh ++ [1], none)⟩
  | 2 => ⟨[], fun sh => (sh ++ [2], none)⟩
  | _ => ⟨[], fun sh => (sh, none)⟩

/-- A one-node graph: start node `0`, no successors, `post` returns
`None`. -/
def gS : Graph (List Nat) := fun _ => ⟨[], fun sh => (sh, none)⟩

/-- A diamond: `0 → 1, 0 → 2, 1 → 3, 2 → 3`, all under `"default"`. -/
def gD : Graph (List Nat) := fun n =>
  match n with
  | 0 => ⟨[("default", [1, 2])], fun sh => (sh, some "default")⟩
  | 1 => ⟨[("default", [3])], fun sh => (sh, none)⟩
  | 2 => ⟨[("default", [3])], fun sh => (sh, none)⟩
  | _ => ⟨[], fun sh => (sh, none)⟩

/-- A two-node cycle `0 → 1 → 0` under `"default"`. -/
def gC : Graph (List Nat) := fun n =>
  match n with
  | 0 => ⟨[("default", [1])], fun sh => (sh, some "default")⟩
  | 1 => ⟨[("default", [0])], fun sh => (sh, none)⟩
  | _ => ⟨[], fun sh => (sh, none)⟩

/-- A start node `0` with successors registered only under label `"a"`,
whose `post` returns `"x"` — an action with no registered successor
edges. -/
def exG9 : Graph (List Nat) := fun n =>
  match n with
  | 0 => ⟨[("a", [1])], fun sh => (sh ++ [0], some "x")⟩
  | 1 => ⟨[], fun sh => (sh ++ [1], none)⟩
  | _ => ⟨[], fun sh => (sh, none)⟩

/-- Start node `0` constrained to `"go"`; node `1` branches under two
labels `"x"`/`"y"` to sinks `2` and `3`. -/
def gW : Graph (List Nat) := fun n =>
  match n with
  | 0 => ⟨[("go", [1]), ("skip", [4])], fun sh => (sh, some "go")⟩
  | 1 => ⟨[("x", [2]), ("y", [3])], fun sh => (sh, none)⟩
  | _ => ⟨[], fun sh => (sh, none)⟩

/-- An execute phase that fails on attempts `0` and `1` and succeeds on
attempt `2`. -/
def exExecf : Nat → Except String Nat := fun i =>
  if i < 2 then .error "boom" else .ok 42

/-- An execute phase that fails on every attempt, raising the attempt
index as the exception. -/
def exExecfFail : Nat → Except Nat Nat := fun i =>
  .error i

/-- A per-element batch execute phase: succeed at once with `item + 1`. -/
def exBatchExecf : Nat → Nat → Except Nat Nat := fun i _ =>
  .ok (i + 1)

/-- A per-element fallback that re-raises. -/
def exBatchFb : Nat → Nat → Except Nat Nat := fun _ e =>
  .error e

/-- Pointwise inclusion of dependency states: every recorded edge of the
first is present in the second (the builder only ever adds edges). -/
def DepLE (st st2 : DepState) : Prop :=
  (∀ k x, x ∈ getD st.deps k → x ∈ getD st2.deps k) ∧
  (∀ k x, x ∈ getD st.rdeps k → x ∈ getD st2.rdeps k)

/-- Node `n`'s successor table has been folded into the state in full:
for every action label present in the table and every successor under it,
the forward and reverse dependency edges are recorded. -/
def FullyExpanded {σ : Type} (g : Graph σ) (st : DepState) (n : Nat) : Prop :=
  ∀ a ∈ keysOf (g n).successors, ∀ t ∈ sGet (g n).successors a,
    n ∈ getD st.deps t ∧ t ∈ getD st.rdeps n

/-! ### Scheduler invariants (proof infrastructure) -/

/-- The state invariant the scheduler maintains between waves, for a run
with start node `s` whose recorded action is `v0`, against the dependency
map `deps` built for the run; `wave` is a strict upper bound on the wave
indices recorded so far.  It packages: the start node is completed and its
`action_map` entry is `v0`; no warnings were emitted; `action_map` keys
are distinct and coincide, in order, with the trace of executed nodes; and
every recorded execution of a non-start node had its entire dependency set
inside the `completed` set captured when the node's wave began (a set the
node itself was outside of), with events of equal wave index sharing that
captured set. -/
def StInv {σ : Type} (deps : List (Nat × List Nat)) (s : Nat) (v0 : String)
    (wave : Nat) (st : RunState σ) : Prop :=
  s ∈ st.completed ∧
  alookup st.actionMap s = some v0 ∧
  st.warnings = [] ∧
  (st.actionMap.map Prod.fst).Nodup ∧
  st.events.map ExecEvent.node = st.actionMap.map Prod.fst ∧
  (∀ ev ∈ st.events,
    (ev.node = s ↔ ev.wave = 0) ∧
    ev.wave < wave ∧
    (∀ x ∈ ev.waveCompleted, x ∈ ev.completedBefore) ∧
    (ev.node ≠ s →
      (∀ d ∈ getD deps ev.node, d ∈ ev.waveCompleted) ∧ ev.node ∉ ev.waveCompleted)) ∧
  (∀ ev ∈ st.events, ∀ ev2 ∈ st.events,
    ev.wave = ev2.wave → ev.waveCompleted = ev2.waveCompleted)

/-- The invariant threaded through one wave's execution (`runWave`):
`StInv` with the bound relaxed to admit the current wave's events, the
requirement that every event of the current wave records `waveC` as its
wave-start `completed` set, and `waveC ∪ {s} ⊆ completed`. -/
def WaveInv {σ : Type} (deps : List (Nat × List Nat)) (s : Nat) (v0 : String)
    (wave : Nat) (waveC : List Nat) (st : RunState σ) : Prop :=
  StInv deps s v0 (wave + 1) st ∧
  (∀ ev ∈ st.events, ev.wave = wave → ev.waveCompleted = waveC) ∧
  (∀ x ∈ waveC, x ∈ st.completed) ∧
  s ∈ waveC

/-! ## Theorems -/

/-! ### List and lookup lemmas -/

theorem mem_setAdd (l : List Nat) (y x : Nat) : x ∈ setAdd l y ↔ x ∈ l ∨ x = y := by
  unfold setAdd
  by_cases h : y ∈ l
  · rw [if_pos h]
    constructor
    · exact Or.inl
    · rintro (hx | rfl)
      · exact hx
      · exact h
  · rw [if_neg h]
    simp

theorem subset_setAdd (l : List Nat) (y : Nat) : ∀ x ∈ l, x ∈ setAdd l y :=
  fun x hx => (mem_setAdd l y x).mpr (Or.inl hx)

theorem alookup_append_left {β : Type} (l l2 : List (Nat × β)) (n : Nat) (v : β)
    (h : alookup l n = some v) : alookup (l ++ l2) n = some v := by
  induction l with
  | nil => simp [alookup] at h
  | cons kv rest ih =>
    obtain ⟨k, w⟩ := kv
    by_cases hk : k = n
    · simp only [alookup, if_pos hk] at h
      simp only [List.cons_append, alookup, if_pos hk]
      exact h
    · simp only [alookup, if_neg hk] at h
      simp only [List.cons_append, alookup, if_neg hk]
      exact ih h

theorem alookup_isSome_iff {β : Type} (l : List (Nat × β)) (n : Nat) :
    (alookup l n).isSome = true ↔ n ∈ l.map Prod.fst := by
  induction l with
  | nil => simp [alookup]
  | cons kv rest ih =>
    obtain ⟨k, w⟩ := kv
    by_cases hk : k = n
    · subst hk
      simp [alookup]
    · simp [alookup, if_neg hk, ih, Ne.symm hk]

theorem mem_foldl_setAdd (x : Nat) :
    ∀ (l acc : List Nat), x ∈ l.foldl setAdd acc ↔ x ∈ acc ∨ x ∈ l := by
  intro l
  induction l with
  | nil => simp
  | cons y l ih =>
    intro acc
    rw [List.foldl_cons, ih (setAdd acc y), mem_setAdd]
    constructor
    · rintro ((hx | rfl) | hx)
      · exact Or.inl hx
      · exact Or.inr (by simp)
      · exact Or.inr (List.mem_cons_of_mem y hx)
    · rintro (hx | hx)
      · exact Or.inl (Or.inl hx)
      · rcases List.mem_cons.mp hx with rfl | hx
        · exact Or.inl (Or.inr rfl)
        · exact Or.inr hx

theorem mem_foldl_append {α : Type} (f : Nat → List α) (x : α) :
    ∀ (l : List Nat) (acc : List α),
      x ∈ l.foldl (fun acc n => acc ++ f n) acc → x ∈ acc ∨ ∃ n ∈ l, x ∈ f n := by
  intro l
  induction l with
  | nil => intro acc h; exact Or.inl h
  | cons m l ih =>
    intro acc h
    rw [List.foldl_cons] at h
    rcases ih (acc ++ f m) h with hx | ⟨n, hn, hx⟩
    · rcases List.mem_append.mp hx with hx | hx
      · exact Or.inl hx
      · exact Or.inr ⟨m, List.mem_cons_self m l, hx⟩
    · exact Or.inr ⟨n, List.mem_cons_of_mem m hn, hx⟩

theorem recomputeReady_subset_deps (deps rdeps : List (Nat × List Nat))
    (completed : List Nat) :
    ∀ n ∈ recomputeReady deps rdeps completed, ∀ d ∈ getD deps n, d ∈ completed := by
  intro n hn d hd
  unfold recomputeReady at hn
  rw [mem_foldl_setAdd] at hn
  rcases hn with hn | hn
  · simp at hn
  · rw [List.mem_filter] at hn
    rcases mem_foldl_append _ n _ _ hn.1 with hx | ⟨m, _, hx⟩
    · simp at hx
    · rw [List.mem_filter] at hx
      have hall := hx.2
      rw [List.all_eq_true] at hall
      simpa using hall d hd

theorem initialReady_subset_deps (deps : List (Nat × List Nat)) (completed : List Nat) :
    ∀ n ∈ initialReady deps completed, ∀ d ∈ getD deps n, d ∈ completed := by
  intro n hn d hd
  unfold initialReady at hn
  rw [List.mem_filter] at hn
  have hall := hn.2
  rw [List.all_eq_true] at hall
  simpa using hall d hd

/-! ### executeNode lemmas -/

theorem executeNode_already {σ : Type} (g : Graph σ) (w : Nat) (wc : List Nat)
    (n : Nat) (st : RunState σ) (h : (alookup st.actionMap n).isSome = true) :
    executeNode g w wc n st = st := by
  unfold executeNode
  rw [if_pos h]

theorem executeNode_new {σ : Type} (g : Graph σ) (w : Nat) (wc : List Nat)
    (n : Nat) (st : RunState σ) (h : alookup st.actionMap n = none) :
    executeNode g w wc n st =
      { st with
        shared := ((g n).run st.shared).1,
        actionMap := st.actionMap ++ [(n, pyOr ((g n).run st.shared).2)],
        events := st.events ++ [⟨w, n, wc, st.completed, st.shared⟩] } := by
  unfold executeNode
  rw [h]
  rfl

/-! ### Retry lemmas (`Node._exec`) -/

theorem nodeExecGo_spec_succeed {P E R : Type} (N wait : Nat) (execf : Nat → Except E R)
    (fallback : P → E → Except E R) (p : P) (v : R) :
    ∀ (m k : Nat) (tr : RetryTrace E), k + m = N → 1 ≤ m →
      (∀ i, k ≤ i → i + 1 < N → (execf i).isOk = false) →
      execf (N - 1) = .ok v →
      nodeExecGo N wait execf fallback p (List.range' k m) tr =
        (.ok (some v),
         ⟨tr.execCalls + m, tr.sleeps + (if 0 < wait then m - 1 else 0),
          tr.fallbackCalls, tr.fallbackArg⟩) := by
  intro m
  induction m with
  | zero => intro k tr hkm hm; omega
  | succ m ih =>
    intro k tr hkm _ hfail hsucc
    obtain ⟨ec, sl, fc, fa⟩ := tr
    rw [List.range'_succ]
    by_cases hm0 : m = 0
    · subst hm0
      have hk : k = N - 1 := by omega
      subst hk
      simp [nodeExecGo, hsucc]
    · have hkN : k + 1 < N := by omega
      have hko : (execf k).isOk = false := hfail k (Nat.le_refl k) hkN
      obtain ⟨e, he⟩ : ∃ e, execf k = .error e := by
        cases hek : execf k with
        | ok w => rw [hek] at hko; simp [Except.isOk, Except.toBool] at hko
        | error e => exact ⟨e, rfl⟩
      have hkne : ¬ (k = N - 1) := by omega
      have hm1 : 1 ≤ m := by omega
      have hrec := ih (k + 1)
        (if 0 < wait then ⟨ec + 1, sl + 1, fc, fa⟩ else ⟨ec + 1, sl, fc, fa⟩)
        (by omega) hm1 (fun i h1 h2 => hfail i (by omega) h2) hsucc
      simp only [nodeExecGo, he, if_neg hkne]
      have e1 : ec + 1 + m = ec + (m + 1) := by omega
      by_cases hw : 0 < wait
      · simp only [if_pos hw] at hrec ⊢
        have e2 : sl + 1 + (m - 1) = sl + (m + 1 - 1) := by omega
        rw [hrec, e1, e2]
      · simp only [if_neg hw] at hrec ⊢
        rw [hrec, e1]

theorem nodeExecGo_spec_allfail {P E R : Type} (N wait : Nat) (execf : Nat → Except E R)
    (es : Nat → E) (fallback : P → E → Except E R) (p : P) :
    ∀ (m k : Nat) (tr : RetryTrace E), k + m = N → 1 ≤ m →
      (∀ i, i < N → execf i = .error (es i)) →
      nodeExecGo N wait execf fallback p (List.range' k m) tr =
        ((fallback p (es (N - 1))).map some,
         ⟨tr.execCalls + m, tr.sleeps + (if 0 < wait then m - 1 else 0),
          tr.fallbackCalls + 1, some (es (N - 1))⟩) := by
  intro m
  induction m with
  | zero => intro k tr hkm hm; omega
  | succ m ih =>
    intro k tr hkm _ hfail
    obtain ⟨ec, sl, fc, fa⟩ := tr
    rw [List.range'_succ]
    have hkN : k < N := by omega
    have he : execf k = .error (es k) := hfail k hkN
    by_cases hm0 : m = 0
    · subst hm0
      have hk : k = N - 1 := by omega
      subst hk
      simp [nodeExecGo, he]
    · have hkne : ¬ (k = N - 1) := by omega
      have hm1 : 1 ≤ m := by omega
      have hrec := ih (k + 1)
        (if 0 < wait then ⟨ec + 1, sl + 1, fc, fa⟩ else ⟨ec + 1, sl, fc, fa⟩)
        (by omega) hm1 hfail
      simp only [nodeExecGo, he, if_neg hkne]
      have e1 : ec + 1 + m = ec + (m + 1) := by omega
      by_cases hw : 0 < wait
      · simp only [if_pos hw] at hrec ⊢
        have e2 : sl + 1 + (m - 1) = sl + (m + 1 - 1) := by omega
        rw [hrec, e1, e2]
      · simp only [if_neg hw] at hrec ⊢
        rw [hrec, e1]

/-- C5: for a retry-capable node with `maxAttempts = N ≥ 1` whose execute
phase fails on attempts `1 .. N-1` (0-based `cur_retry` values
`0 .. N-2`) and succeeds on attempt `N`, `Node._exec` returns the
successful attempt's value, the execute phase is invoked exactly `N`
times (so the 1-based index of the observed successful attempt is `N`,
with no further attempts), the fallback is never invoked, and
`time.sleep` is invoked `N - 1` times when `waitSeconds > 0` and never
when `waitSeconds = 0`. -/
theorem c5_retry_succeeds_on_last_attempt {P E R : Type} (N wait : Nat)
    (execf : Nat → Except E R) (fallback : P → E → Except E R) (p : P) (v : R)
    (hN : 1 ≤ N)
    (hfail : ∀ i, i + 1 < N → (execf i).isOk = false)
    (hsucc : execf (N - 1) = .ok v) :
    nodeExec N wait execf fallback p =
      (.ok (some v), ⟨N, if 0 < wait then N - 1 else 0, 0, none⟩) := by
  unfold nodeExec
  rw [List.range_eq_range']
  have h := nodeExecGo_spec_succeed N wait execf fallback p v N 0 ⟨0, 0, 0, none⟩
    (by omega) hN (fun i _ h2 => hfail i h2) hsucc
  simpa using h

/-- C5 witness: `N = 3`, `wait = 1`, failures on attempts 1 and 2,
success with value `42` on attempt 3: three execute calls, two sleeps, no
fallback. -/
theorem c5_witness :
    nodeExec 3 1 exExecf (fun (_ : Unit) e => Except.error e) () =
      (.ok (some 42), ⟨3, 2, 0, none⟩) :=
  c5_retry_succeeds_on_last_attempt 3 1 exExecf (fun _ e => Except.error e) () 42
    (by omega)
    (fun i hi => by
      have h2 : i < 2 := by omega
      unfold exExecf
      rw [if_pos h2]
      rfl)
    rfl

/-- C6: for a retry-capable node with `maxAttempts = N ≥ 1` whose execute
phase fails on every attempt, `exec_fallback` is invoked exactly once,
receiving the prepare result `p` and the exception of the last attempt
`es (N-1)`; with the default fallback (`raise exc`, `__init__.py:68-69`)
the last exception propagates verbatim, and an overriding fallback's
return value becomes the execution result with no exception. -/
theorem c6_fallback_after_exhaustion {P E R : Type} (N wait : Nat)
    (execf : Nat → Except E R) (es : Nat → E) (fallback : P → E → Except E R)
    (p : P) (w : R)
    (hN : 1 ≤ N)
    (hfail : ∀ i, i < N → execf i = .error (es i)) :
    nodeExec N wait execf fallback p =
      ((fallback p (es (N - 1))).map some,
       ⟨N, if 0 < wait then N - 1 else 0, 1, some (es (N - 1))⟩)
    ∧ nodeExec N wait execf (fun _ e => Except.error e) p =
      (.error (es (N - 1)),
       ⟨N, if 0 < wait then N - 1 else 0, 1, some (es (N - 1))⟩)
    ∧ nodeExec N wait execf (fun _ _ => Except.ok w) p =
      (.ok (some w),
       ⟨N, if 0 < wait then N - 1 else 0, 1, some (es (N - 1))⟩) := by
  have key : ∀ fb : P → E → Except E R,
      nodeExec N wait execf fb p =
        ((fb p (es (N - 1))).map some,
         ⟨N, if 0 < wait then N - 1 else 0, 1, some (es (N - 1))⟩) := by
    intro fb
    unfold nodeExec
    rw [List.range_eq_range']
    have h := nodeExecGo_spec_allfail N wait execf es fb p N 0 ⟨0, 0, 0, none⟩
      (by omega) hN hfail
    simpa using h
  refine ⟨key fallback, ?_, ?_⟩
  · rw [key (fun _ e => Except.error e)]
    rfl
  · rw [key (fun _ _ => Except.ok w)]
    rfl

/-- C6 witness: `N = 3`, `wait = 0`, every attempt fails with its index:
the default fallback re-raises the last exception `2`; an overriding
fallback returning `7` yields `7`; either way the fallback ran once with
the last exception. -/
theorem c6_witness :
    nodeExec 3 0 exExecfFail (fun (_ : Unit) e => Except.error e) () =
      (.error 2, ⟨3, 0, 1, some 2⟩)
    ∧ nodeExec 3 0 exExecfFail (fun (_ : Unit) (_ : Nat) => Except.ok 7) () =
      (.ok (some 7), ⟨3, 0, 1, some 2⟩) :=
  ⟨(c6_fallback_after_exhaustion 3 0 exExecfFail (fun i => i)
      (fun _ e => Except.error e) () 7 (by omega) (fun _ _ => rfl)).2.1,
   (c6_fallback_after_exhaustion 3 0 exExecfFail (fun i => i)
      (fun _ e => Except.error e) () 7 (by omega) (fun _ _ => rfl)).2.2⟩

/-! ### Batch lemmas (`BatchNode._exec`) -/

theorem batchGo_ok {I E R : Type} (f : I → Except E (Option R)) (res : I → Option R) :
    ∀ l : List I, (∀ i ∈ l, f i = .ok (res i)) →
      batchGo f l = .ok (l.map res) := by
  intro l
  induction l with
  | nil => intro _; rfl
  | cons i rest ih =>
    intro h
    have hi : f i = .ok (res i) := h i (List.mem_cons_self i rest)
    have hrest := ih (fun j hj => h j (List.mem_cons_of_mem i hj))
    simp [batchGo, hi, hrest]

/-- C8: `BatchNode._exec` applies the node's per-element
execute-with-retry step (`Node._exec`) to each element of the input in
order; when every element succeeds with result `res i`, the output is
`items.map res` — same length, same order — and both an absent (`None`)
and an empty input produce the empty output. -/
theorem c8_batch_maps_in_order {I E R : Type} (mr w : Nat)
    (execf : I → Nat → Except E R) (fallback : I → E → Except E R)
    (items : List I) (res : I → Option R)
    (hok : ∀ i ∈ items, (nodeExec mr w (execf i) fallback i).1 = .ok (res i)) :
    batchNodeExec mr w execf fallback (some items) = .ok (items.map res)
    ∧ (items.map res).length = items.length
    ∧ batchNodeExec mr w execf fallback (none : Option (List I)) =
        .ok ([] : List (Option R))
    ∧ batchNodeExec mr w execf fallback (some ([] : List I)) =
        .ok ([] : List (Option R)) := by
  refine ⟨?_, items.length_map res, rfl, rfl⟩
  unfold batchNodeExec pyOrItems
  exact batchGo_ok _ res items hok

/-- C8 witness: the batch node over `[10, 20]` with a single-attempt
per-element execute `item ↦ item + 1` yields `[11, 21]` in order, and the
`None` and `[]` inputs yield `[]`. -/
theorem c8_witness :
    batchNodeExec 1 0 exBatchExecf exBatchFb (some [10, 20]) =
      .ok [some 11, some 21]
    ∧ ([some 11, some 21] : List (Option Nat)).length = [10, 20].length
    ∧ batchNodeExec 1 0 exBatchExecf exBatchFb (none : Option (List Nat)) =
        .ok ([] : List (Option Nat))
    ∧ batchNodeExec 1 0 exBatchExecf exBatchFb (some ([] : List Nat)) =
        .ok ([] : List (Option Nat)) :=
  c8_batch_maps_in_order 1 0 exBatchExecf exBatchFb [10, 20]
    (fun i => some (i + 1)) (by intro i hi; fin_cases hi <;> rfl)

/-! ### C10 — a Flow without a start node -/

/-- C10: invoking the run entry point of a `Flow` whose `start_node` was
never set fails at once: `execute_node(None)` reaches
`copy.copy(None).set_params(p)` and raises `AttributeError`
(`OrchError.noStartNode`) before any node's `prep`/`exec`/`post` runs —
the failure state carries an empty trace and an untouched context — and
no result is returned. -/
theorem c10_missing_start_node_raises {σ : Type} (g : Graph σ) (sh : σ)
    (bf lf : Nat) :
    orch g none sh bf lf = .error (.noStartNode, ⟨sh, [], [], [], []⟩)
    ∧ flowRun g none sh bf lf = .error (.noStartNode, ⟨sh, [], [], [], []⟩)
    ∧ (orchFinal (orch g none sh bf lf)).events = []
    ∧ orchResultOf (orch g none sh bf lf) = none :=
  ⟨rfl, rfl, rfl, rfl⟩

/-! ### Counterexamples -/

/-- C1 counterexample: in the run of `exG1` (start `0` fanning out to the
independent nodes `1` and `2`), nodes `1` and `2` are executed in the same
wave `1`, and node `2` observes node `1`'s shared-context write (`1` is in
its `sharedBefore` log).  This refutes the claim's clause that each node
observes only shared-context writes made by nodes completed in earlier
waves: the scheduler runs wave members sequentially against the same
mutable context. -/
theorem c1_counterexample :
    (orchFinal (orch exG1 (some 0) ([] : List Nat) 12 12)).events =
      [⟨0, 0, [], [], []⟩, ⟨1, 1, [0], [0], [0]⟩, ⟨1, 2, [0], [0, 1], [0, 1]⟩]
    ∧ ¬ (∀ ev ∈ (orchFinal (orch exG1 (some 0) ([] : List Nat) 12 12)).events,
         ∀ ev2 ∈ (orchFinal (orch exG1 (some 0) ([] : List Nat) 12 12)).events,
           ev2.wave = ev.wave → ev2.node ∉ ev.sharedBefore) :=
  ⟨rfl, by decide⟩

/-- C4 counterexample: building the dependency graph of the diamond `gD`
(`0 → 1, 0 → 2, 1 → 3, 2 → 3`) expands node `3` twice — the
`add_dependency` invocation log is `[0, 1, 3, 2, 3]` — refuting the claim
that a visited-set guard makes each discovered node's successor table be
enumerated at most once per build. -/
theorem c4_counterexample :
    buildDependencyGraph gD 0 (some "default") 10 =
      some ⟨[(0, []), (1, [0]), (3, [1, 2]), (2, [0])],
            [(0, [1, 2]), (1, [3]), (3, []), (2, [3])],
            [0, 1, 3, 2, 3]⟩
    ∧ List.count 3 [0, 1, 3, 2, 3] = 2 :=
  ⟨rfl, rfl⟩

/-- C9 counterexample: in the run of `exG9` the start node returns action
`"x"`, for which it has no registered successors (its only edges are under
`"a"`), so `get_next_nodes` *would* emit the end-of-path warning — yet the
run completes normally with result `"x"` and its warning log is empty:
`_orch` and `_build_dependency_graph` read `successors.get` directly and
never call `get_next_nodes`, so no diagnostic is emitted.  This refutes
the claim's clause that a warning-level diagnostic is emitted. -/
theorem c9_counterexample :
    (getNextNodes [("a", [1])] (some "x")).2 = true
    ∧ orchResultOf (orch exG9 (some 0) ([] : List Nat) 10 10) = some (some "x")
    ∧ (orchFinal (orch exG9 (some 0) ([] : List Nat) 10 10)).warnings = [] :=
  ⟨rfl, rfl, rfl⟩

/-! ### Wave-loop invariant preservation -/

theorem stInv_mono_wave {σ : Type} (deps : List (Nat × List Nat)) (s : Nat)
    (v0 : String) {w w2 : Nat} (hw : w ≤ w2) {st : RunState σ}
    (h : StInv deps s v0 w st) : StInv deps s v0 w2 st := by
  obtain ⟨h1, h2, h3, h4, h5, h6, h7⟩ := h
  refine ⟨h1, h2, h3, h4, h5, ?_, h7⟩
  intro ev hev
  obtain ⟨a, b, c, d⟩ := h6 ev hev
  exact ⟨a, by omega, c, d⟩

theorem runWave_waveInv {σ : Type} (g : Graph σ) (deps : List (Nat × List Nat))
    (s : Nat) (v0 : String) (wave : Nat) (waveC : List Nat) (hw : 1 ≤ wave) :
    ∀ (ready : List Nat) (st : RunState σ),
      WaveInv deps s v0 wave waveC st →
      (∀ n ∈ ready, ∀ d ∈ getD deps n, d ∈ waveC) →
      WaveInv deps s v0 wave waveC (runWave g wave waveC ready st) := by
  intro ready
  induction ready with
  | nil => intro st hinv _; exact hinv
  | cons n rest ih =>
    intro st hinv hready
    rw [runWave]
    by_cases hc : n ∈ st.completed
    · rw [if_pos hc]
      exact ih st hinv (fun m hm => hready m (List.mem_cons_of_mem n hm))
    · rw [if_neg hc]
      refine ih _ ?_ (fun m hm => hready m (List.mem_cons_of_mem n hm))
      obtain ⟨⟨hsC, hlook, hwarn, hnd, hmap, hevs, hpairs⟩, hcurw, hwCsub, hsW⟩ := hinv
      by_cases hm : (alookup st.actionMap n).isSome = true
      · rw [executeNode_already g wave waveC n st hm]
        exact ⟨⟨subset_setAdd _ _ s hsC, hlook, hwarn, hnd, hmap, hevs, hpairs⟩,
          hcurw, fun x hx => subset_setAdd _ _ x (hwCsub x hx), hsW⟩
      · have hnone : alookup st.actionMap n = none := by
          cases hx : alookup st.actionMap n with
          | none => rfl
          | some v => rw [hx] at hm; simp at hm
        rw [executeNode_new g wave waveC n st hnone]
        have hns : n ≠ s := by
          intro hEq
          rw [hEq, hlook] at hnone
          exact Option.noConfusion hnone
        have hnotkeys : n ∉ st.actionMap.map Prod.fst := by
          intro hk
          rw [← alookup_isSome_iff, hnone] at hk
          simp at hk
        have hnW : n ∉ waveC := fun hx => hc (hwCsub n hx)
        refine ⟨⟨?_, ?_, ?_, ?_, ?_, ?_, ?_⟩, ?_, ?_, hsW⟩
        · exact subset_setAdd _ _ s hsC
        · exact alookup_append_left _ _ _ _ hlook
        · exact hwarn
        · show ((st.actionMap ++ [(n, _)]).map Prod.fst).Nodup
          rw [List.map_append, List.nodup_append]
          refine ⟨hnd, ?_, ?_⟩
          · simp
          · intro a ha han
            simp only [List.map_cons, List.map_nil, List.mem_singleton] at han
            exact hnotkeys (han ▸ ha)
        · show (st.events ++ [_]).map ExecEvent.node = (st.actionMap ++ [(n, _)]).map Prod.fst
          rw [List.map_append, List.map_append, hmap]
          rfl
        · intro ev hev
          rcases List.mem_append.mp hev with hev | hev
          · exact hevs ev hev
          · rw [List.mem_singleton] at hev
            subst hev
            exact ⟨⟨fun h => absurd h hns,
                fun h => absurd (show wave = 0 from h) (by omega)⟩,
              show wave < wave + 1 by omega, fun x hx => hwCsub x hx,
              fun _ => ⟨hready n (List.mem_cons_self n rest), hnW⟩⟩
        · intro ev hev ev2 hev2 hw12
          rcases List.mem_append.mp hev with hev | hev <;>
            rcases List.mem_append.mp hev2 with hev2 | hev2
          · exact hpairs ev hev ev2 hev2 hw12
          · rw [List.mem_singleton] at hev2
            subst hev2
            exact hcurw ev hev hw12
          · rw [List.mem_singleton] at hev
            subst hev
            exact (hcurw ev2 hev2 hw12.symm).symm
          · rw [List.mem_singleton] at hev hev2
            subst hev
            subst hev2
            rfl
        · intro ev hev hevw
          rcases List.mem_append.mp hev with hev | hev
          · exact hcurw ev hev hevw
          · rw [List.mem_singleton] at hev
            subst hev
            rfl
        · exact fun x hx => subset_setAdd _ _ x (hwCsub x hx)

theorem waveLoop_stInv {σ : Type} (g : Graph σ) (deps rdeps : List (Nat × List Nat))
    (s : Nat) (v0 : String) :
    ∀ (fuel wave : Nat) (ready : List Nat) (st : RunState σ),
      1 ≤ wave →
      StInv deps s v0 wave st →
      (∀ n ∈ ready, ∀ d ∈ getD deps n, d ∈ st.completed) →
      (waveLoop g deps rdeps fuel wave ready st).2 = true →
      ∃ W, StInv deps s v0 W (waveLoop g deps rdeps fuel wave ready st).1 := by
  intro fuel
  induction fuel with
  | zero =>
    intro wave ready st hw hst hready hterm
    rw [waveLoop] at hterm ⊢
    by_cases hre : ready.isEmpty
    · rw [if_pos hre]
      exact ⟨wave, hst⟩
    · rw [if_neg hre] at hterm
      simp at hterm
  | succ fuel ih =>
    intro wave ready st hw hst hready hterm
    rw [waveLoop] at hterm ⊢
    by_cases hre : ready.isEmpty
    · rw [if_pos hre]
      exact ⟨wave, hst⟩
    · rw [if_neg hre] at hterm ⊢
      have hwv : WaveInv deps s v0 wave st.completed st := by
        refine ⟨stInv_mono_wave deps s v0 (by omega) hst, ?_, fun x hx => hx, hst.1⟩
        intro ev hev hevw
        have hlt := ((hst.2.2.2.2.2.1) ev hev).2.1
        omega
      have h1 := runWave_waveInv g deps s v0 wave st.completed hw ready st hwv hready
      exact ih (wave + 1) _ _ (by omega) h1.1
        (recomputeReady_subset_deps deps rdeps _) hterm

theorem orch_ok_invariants {σ : Type} (g : Graph σ) (s : Nat) (sh : σ)
    (bf lf : Nat) (r : OrchOk σ) (h : orch g (some s) sh bf lf = .ok r) :
    (∃ W, StInv r.dg.deps s (pyOr ((g s).run sh).2) W r.final) ∧
    r.result = alookup r.final.actionMap s := by
  have halook : alookup [(s, pyOr ((g s).run sh).2)] s = some (pyOr ((g s).run sh).2) := by
    simp [alookup]
  have hunf : orch g (some s) sh bf lf =
      (match buildDependencyGraph g s (alookup [(s, pyOr ((g s).run sh).2)] s) bf with
       | none => .error (.buildRecursionLimit,
           (⟨((g s).run sh).1, [(s, pyOr ((g s).run sh).2)], [s],
             [⟨0, s, [], [], sh⟩], []⟩ : RunState σ))
       | some dg =>
         let out := waveLoop g dg.deps dg.rdeps lf 1
           (initialReady dg.deps [s])
           (⟨((g s).run sh).1, [(s, pyOr ((g s).run sh).2)], [s],
             [⟨0, s, [], [], sh⟩], []⟩ : RunState σ)
         if out.2 then .ok ⟨out.1, dg, alookup out.1.actionMap s⟩
         else .error (.loopFuelExhausted, out.1)) := rfl
  rw [hunf, halook] at h
  cases hbuild : buildDependencyGraph g s (some (pyOr ((g s).run sh).2)) bf with
  | none =>
    rw [hbuild] at h
    exact Except.noConfusion h
  | some dg =>
    rw [hbuild] at h
    simp only at h
    by_cases hterm : (waveLoop g dg.deps dg.rdeps lf 1 (initialReady dg.deps [s])
        (⟨((g s).run sh).1, [(s, pyOr ((g s).run sh).2)], [s],
          [⟨0, s, [], [], sh⟩], []⟩ : RunState σ)).2 = true
    · rw [if_pos hterm] at h
      injection h with hr
      subst hr
      have hstart : StInv dg.deps s (pyOr ((g s).run sh).2) 1
          (⟨((g s).run sh).1, [(s, pyOr ((g s).run sh).2)], [s],
            [⟨0, s, [], [], sh⟩], []⟩ : RunState σ) := by
        refine ⟨List.mem_singleton.mpr rfl, halook, rfl, by simp, rfl, ?_, ?_⟩
        · intro ev hev
          rw [show (⟨((g s).run sh).1, [(s, pyOr ((g s).run sh).2)], [s],
              [⟨0, s, [], [], sh⟩], []⟩ : RunState σ).events = [⟨0, s, [], [], sh⟩]
              from rfl, List.mem_singleton] at hev
          subst hev
          exact ⟨⟨fun _ => rfl, fun _ => rfl⟩, show (0 : Nat) < 1 by omega, by simp,
            fun hne => absurd rfl hne⟩
        · intro ev hev ev2 hev2 _
          rw [show (⟨((g s).run sh).1, [(s, pyOr ((g s).run sh).2)], [s],
              [⟨0, s, [], [], sh⟩], []⟩ : RunState σ).events = [⟨0, s, [], [], sh⟩]
              from rfl, List.mem_singleton] at hev hev2
          subst hev
          subst hev2
          rfl
      have hinv := waveLoop_stInv g dg.deps dg.rdeps s (pyOr ((g s).run sh).2)
        lf 1 (initialReady dg.deps [s]) _ (by omega) hstart
        (initialReady_subset_deps dg.deps [s]) hterm
      exact ⟨hinv, rfl⟩
    · rw [if_neg hterm] at h
      exact Except.noConfusion h

/-! ### Claim theorems about the wave scheduler -/

/-- C1 (amended): in every completed orchestration run, every non-start
node the wave scheduler executes is executed only when its entire
dependency set (from the dependency graph built for the run) is already
inside the `completed` set captured when its wave began — hence also
inside the completed set at the moment of execution — and the node itself
is outside that wave-start set; the start node is exactly the wave-0
execution; and a node and a dependent that strictly requires it are never
executed in the same wave.  (The original claim's final clause — that a
node observes *only* shared-context writes of nodes completed in earlier
waves — fails: wave members run sequentially against the same mutable
context, see `c1_counterexample`; what holds is that all of a node's
dependencies completed, and wrote, in strictly earlier waves.) -/
theorem c1_wave_scheduling_invariant {σ : Type} (g : Graph σ) (s : Nat) (sh : σ)
    (bf lf : Nat) (r : OrchOk σ) (h : orch g (some s) sh bf lf = .ok r) :
    ∀ ev ∈ r.final.events,
      (ev.node ≠ s →
        (∀ d ∈ getD r.dg.deps ev.node, d ∈ ev.waveCompleted) ∧
        (∀ d ∈ getD r.dg.deps ev.node, d ∈ ev.completedBefore) ∧
        ev.node ∉ ev.waveCompleted) ∧
      (ev.node = s ↔ ev.wave = 0) ∧
      (∀ ev2 ∈ r.final.events, ev.wave = ev2.wave → ev.node ≠ s →
        ev.node ∉ getD r.dg.deps ev2.node) := by
  obtain ⟨⟨W, hst⟩, _⟩ := orch_ok_invariants g s sh bf lf r h
  obtain ⟨hsC, hlook, hwarn, hnd, hmap, hevs, hpairs⟩ := hst
  intro ev hev
  obtain ⟨hiff, hlt, hsub, hguard⟩ := hevs ev hev
  refine ⟨?_, hiff, ?_⟩
  · intro hne
    obtain ⟨hdeps, hnotin⟩ := hguard hne
    exact ⟨hdeps, fun d hd => hsub d (hdeps d hd), hnotin⟩
  · intro ev2 hev2 hww hne hmem
    obtain ⟨hiff2, _, _, hguard2⟩ := hevs ev2 hev2
    by_cases h2s : ev2.node = s
    · have hzero : ev.wave = 0 := by rw [hww]; exact hiff2.mp h2s
      exact hne (hiff.mpr hzero)
    · obtain ⟨hdeps2, _⟩ := hguard2 h2s
      have hin : ev.node ∈ ev2.waveCompleted := hdeps2 ev.node hmem
      have heq : ev.waveCompleted = ev2.waveCompleted := hpairs ev hev ev2 hev2 hww
      obtain ⟨_, hnotin⟩ := hguard hne
      rw [← heq] at hin
      exact hnotin hin

/-- C1 witness: the invariant instantiated on the run of `exG1` at the
wave-1 execution of node `1`: its dependency `0` is in the wave-start
completed set `[0]`, node `1` itself is not, and node `1` is not a
dependency of its wave-mate node `2`. -/
theorem c1_witness :
    (0 : Nat) ∈ ([0] : List Nat)
    ∧ (1 : Nat) ∉ ([0] : List Nat)
    ∧ (1 : Nat) ∉ getD [(0, []), (1, [0]), (2, [0])] 2 := by
  have A := c1_wave_scheduling_invariant exG1 0 [] 12 12
    ⟨⟨[0, 1, 2], [(0, "default"), (1, "default"), (2, "default")], [0, 1, 2],
      [⟨0, 0, [], [], []⟩, ⟨1, 1, [0], [0], [0]⟩, ⟨1, 2, [0], [0, 1], [0, 1]⟩], []⟩,
     ⟨[(0, []), (1, [0]), (2, [0])], [(0, [1, 2]), (1, []), (2, [])], [0, 1, 2]⟩,
     some "default"⟩ rfl
  have h1 := A ⟨1, 1, [0], [0], [0]⟩ (by decide)
  exact ⟨(h1.1 (by decide)).1 0 (by decide), (h1.1 (by decide)).2.2,
    h1.2.2 ⟨1, 2, [0], [0, 1], [0, 1]⟩ (by decide) rfl (by decide)⟩

/-- C2: at-most-one execution per node per orchestration run: the trace
of actually executed nodes of a completed run has no duplicates (even when
a node is reachable through several predecessors), and `execute_node` on a
node already recorded in the run's `action_map` is a silent no-op leaving
the state untouched. -/
theorem c2_at_most_once_per_run {σ : Type} (g : Graph σ) (s : Nat) (sh : σ)
    (bf lf : Nat) (r : OrchOk σ) (st : RunState σ) (n w : Nat) (wc : List Nat) :
    (orch g (some s) sh bf lf = .ok r →
      (r.final.events.map ExecEvent.node).Nodup) ∧
    ((alookup st.actionMap n).isSome = true → executeNode g w wc n st = st) := by
  constructor
  · intro h
    obtain ⟨⟨W, hst⟩, _⟩ := orch_ok_invariants g s sh bf lf r h
    rw [hst.2.2.2.2.1]
    exact hst.2.2.2.1
  · exact executeNode_already g w wc n st

/-- C2 witness: the one-node run's trace is duplicate-free, and
`execute_node` on a node already in the `action_map` returns the state
unchanged. -/
theorem c2_witness :
    (List.map ExecEvent.node ([⟨0, 0, [], [], []⟩] : List (ExecEvent (List Nat)))).Nodup
    ∧ executeNode gS 1 [0] 0 (⟨[], [(0, "x")], [0], [], []⟩ : RunState (List Nat)) =
        ⟨[], [(0, "x")], [0], [], []⟩ :=
  ⟨(c2_at_most_once_per_run gS 0 [] 5 5
      ⟨⟨[], [(0, "default")], [0], [⟨0, 0, [], [], []⟩], []⟩,
       ⟨[(0, [])], [(0, [])], [0]⟩, some "default"⟩
      ⟨[], [(0, "x")], [0], [], []⟩ 0 1 [0]).1 rfl,
   (c2_at_most_once_per_run gS 0 [] 5 5
      ⟨⟨[], [(0, "default")], [0], [⟨0, 0, [], [], []⟩], []⟩,
       ⟨[(0, [])], [(0, [])], [0]⟩, some "default"⟩
      ⟨[], [(0, "x")], [0], [], []⟩ 0 1 [0]).2 rfl⟩

/-- C7: every completed orchestration run returns exactly the action
recorded in the `action_map` for the start node, that recorded action is
`action or "default"` of what the start node's `post` returned on the
initial shared context, and in particular a start node whose `post`
returns `None` yields the run result `"default"`. -/
theorem c7_run_returns_start_action {σ : Type} (g : Graph σ) (s : Nat) (sh : σ)
    (bf lf : Nat) (r : OrchOk σ) (h : orch g (some s) sh bf lf = .ok r) :
    r.result = alookup r.final.actionMap s
    ∧ alookup r.final.actionMap s = some (pyOr ((g s).run sh).2)
    ∧ (((g s).run sh).2 = none → r.result = some "default") := by
  obtain ⟨⟨W, hst⟩, hres⟩ := orch_ok_invariants g s sh bf lf r h
  refine ⟨hres, hst.2.1, ?_⟩
  intro hnone
  rw [hres, hst.2.1, hnone]
  rfl

/-- C7 witness: the one-node run of `gS` (whose `post` returns `None`)
records and returns `"default"`. -/
theorem c7_witness :
    (some "default" : Option String) = alookup [(0, "default")] 0
    ∧ alookup [(0, "default")] 0 = some (pyOr ((gS 0).run ([] : List Nat)).2)
    ∧ (some "default" : Option String) = some "default" :=
  ⟨(c7_run_returns_start_action gS 0 [] 5 5
      ⟨⟨[], [(0, "default")], [0], [⟨0, 0, [], [], []⟩], []⟩,
       ⟨[(0, [])], [(0, [])], [0]⟩, some "default"⟩ rfl).1,
   (c7_run_returns_start_action gS 0 [] 5 5
      ⟨⟨[], [(0, "default")], [0], [⟨0, 0, [], [], []⟩], []⟩,
       ⟨[(0, [])], [(0, [])], [0]⟩, some "default"⟩ rfl).2.1,
   (c7_run_returns_start_action gS 0 [] 5 5
      ⟨⟨[], [(0, "default")], [0], [⟨0, 0, [], [], []⟩], []⟩,
       ⟨[(0, [])], [(0, [])], [0]⟩, some "default"⟩ rfl).2.2 rfl⟩

/-- C9 (amended): a completed orchestration run emits no warning
diagnostic whatsoever — in particular none for an executed node whose
returned action has no registered successor edges, a condition the run
survives without error, still returning the start node's resolved action.
The warning for that condition exists only in `get_next_nodes`, which the
orchestrator never invokes (see `c9_counterexample`). -/
theorem c9_normal_return_without_diagnostic {σ : Type} (g : Graph σ) (s : Nat)
    (sh : σ) (bf lf : Nat) (r : OrchOk σ) (h : orch g (some s) sh bf lf = .ok r) :
    r.final.warnings = [] ∧ r.result = some (pyOr ((g s).run sh).2) := by
  obtain ⟨⟨W, hst⟩, hres⟩ := orch_ok_invariants g s sh bf lf r h
  refine ⟨hst.2.2.1, ?_⟩
  rw [hres]
  exact hst.2.1

/-- C9 witness: the run of `exG9`, in which the start node returns action
`"x"` with no successors registered under `"x"`, completes with result
`"x"` and an empty warning log. -/
theorem c9_witness :
    ([] : List String) = [] ∧ (some "x" : Option String) = some "x" :=
  c9_normal_return_without_diagnostic exG9 0 [] 10 10
    ⟨⟨[0], [(0, "x")], [0], [⟨0, 0, [], [], []⟩], []⟩,
     ⟨[(0, [])], [(0, [])], [0]⟩, some "x"⟩ rfl

/-! ### Dependency-map bookkeeping lemmas -/

theorem alookup_append2 {β : Type} (l1 l2 : List (Nat × β)) (k : Nat) :
    alookup (l1 ++ l2) k =
      (match alookup l1 k with
       | some v => some v
       | none => alookup l2 k) := by
  induction l1 with
  | nil => rfl
  | cons kv rest ih =>
    obtain ⟨k2, w⟩ := kv
    by_cases hk : k2 = k
    · simp only [List.cons_append, alookup, if_pos hk]
    · simp only [List.cons_append, alookup, if_neg hk]
      exact ih

theorem getD_ensureKey (m : List (Nat × List Nat)) (n k : Nat) :
    getD (ensureKey m n) k = getD m k := by
  unfold ensureKey
  by_cases hs : (alookup m n).isSome = true
  · rw [if_pos hs]
  · rw [if_neg hs]
    unfold getD
    rw [alookup_append2]
    cases hmk : alookup m k with
    | some v => rfl
    | none =>
      by_cases hkn : n = k
      · subst hkn
        simp [alookup]
      · simp [alookup, hkn]

theorem getD_ensureNode_deps (st : DepState) (n k : Nat) :
    getD (ensureNode st n).deps k = getD st.deps k :=
  getD_ensureKey st.deps n k

theorem getD_ensureNode_rdeps (st : DepState) (n k : Nat) :
    getD (ensureNode st n).rdeps k = getD st.rdeps k :=
  getD_ensureKey st.rdeps n k

theorem getD_addToEntry_self (m : List (Nat × List Nat)) (k x : Nat) :
    getD (addToEntry m k x) k = setAdd (getD m k) x := by
  induction m with
  | nil => simp [addToEntry, getD, alookup, setAdd]
  | cons kv rest ih =>
    obtain ⟨k2, v⟩ := kv
    by_cases hk : k2 = k
    · subst hk
      simp [addToEntry, getD, alookup]
    · simp only [addToEntry, if_neg hk]
      simp only [getD, alookup, if_neg hk]
      exact ih

theorem getD_addToEntry_other (m : List (Nat × List Nat)) (k x k2 : Nat)
    (h : k2 ≠ k) : getD (addToEntry m k x) k2 = getD m k2 := by
  induction m with
  | nil => simp [addToEntry, getD, alookup, Ne.symm h]
  | cons kv rest ih =>
    obtain ⟨k3, v⟩ := kv
    by_cases hk : k3 = k
    · subst hk
      unfold addToEntry
      rw [if_pos rfl]
      unfold getD alookup
      rw [if_neg (fun hx => h hx.symm), if_neg (fun hx => h hx.symm)]
    · simp only [addToEntry, if_neg hk]
      unfold getD alookup
      by_cases hk3 : k3 = k2
      · rw [if_pos hk3, if_pos hk3]
      · rw [if_neg hk3, if_neg hk3]
        exact ih

theorem mem_getD_addToEntry_self (m : List (Nat × List Nat)) (k x : Nat) :
    x ∈ getD (addToEntry m k x) k := by
  rw [getD_addToEntry_self]
  exact (mem_setAdd _ _ _).mpr (Or.inr rfl)

theorem mem_getD_addToEntry_mono (m : List (Nat × List Nat)) (k x k2 y : Nat)
    (h : y ∈ getD m k2) : y ∈ getD (addToEntry m k x) k2 := by
  by_cases hk : k2 = k
  · subst hk
    rw [getD_addToEntry_self]
    exact (mem_setAdd _ _ _).mpr (Or.inl h)
  · rw [getD_addToEntry_other m k x k2 hk]
    exact h

theorem slookup_isSome_iff (l : List (String × List Nat)) (a : String) :
    (slookup l a).isSome = true ↔ a ∈ l.map Prod.fst := by
  induction l with
  | nil => simp [slookup]
  | cons kv rest ih =>
    obtain ⟨k, w⟩ := kv
    by_cases hk : k = a
    · subst hk
      simp [slookup]
    · simp [slookup, if_neg hk, ih, Ne.symm hk]

theorem mem_keysOf_of_sGet (succ : List (String × List Nat)) (a : String) (t : Nat)
    (h : t ∈ sGet succ a) : a ∈ keysOf succ := by
  unfold sGet at h
  cases hs : slookup succ a with
  | none => rw [hs] at h; simp at h
  | some l =>
    have : (slookup succ a).isSome = true := by rw [hs]; rfl
    exact (slookup_isSome_iff succ a).mp this

/-! ### Non-termination of the unguarded recursion on cycles -/

theorem expandSuccs_none_of (rec : Nat → Option String → DepState → Option DepState)
    (node t : Nat) (hrec : ∀ st, rec t none st = none) :
    ∀ (ts : List Nat) (st : DepState), t ∈ ts →
      expandSuccs rec node ts st = none := by
  intro ts
  induction ts with
  | nil => intro st h; simp at h
  | cons u ts ih =>
    intro st ht
    rw [expandSuccs]
    rcases List.mem_cons.mp ht with rfl | ht
    · rw [hrec]
    · cases hcall : rec u none (addEdge (ensureNode st u) node u) with
      | none => rfl
      | some st1 => exact ih st1 ht

theorem expandActs_none_of {σ : Type} (g : Graph σ)
    (rec : Nat → Option String → DepState → Option DepState) (node : Nat)
    (a : String) (t : Nat) (hta : t ∈ sGet (g node).successors a)
    (hrec : ∀ st, rec t none st = none) :
    ∀ (acts : List String) (st : DepState), a ∈ acts →
      expandActs g rec node acts st = none := by
  intro acts
  induction acts with
  | nil => intro st h; simp at h
  | cons b acts ih =>
    intro st hb
    rw [expandActs]
    rcases List.mem_cons.mp hb with rfl | hb
    · rw [expandSuccs_none_of rec node t hrec _ st hta]
    · cases hcall : expandSuccs rec node (sGet (g node).successors b) st with
      | none => rfl
      | some st1 => exact ih st1 hb

/-- C4 (amended): `add_dependency` has no visited-set guard — an
already-visited node is re-expanded every time an edge to it is traversed
(see `c4_counterexample` for the double expansion on a diamond), and on a
successor graph containing a cycle (`gC`: `0 → 1 → 0`) the recursion never
returns, regardless of the recursion budget: in Python the build raises
`RecursionError` instead of terminating. -/
theorem c4_unguarded_recursion_diverges_on_cycle :
    ∀ (fuel : Nat) (st : DepState),
      addDependency gC fuel 0 none st = none
      ∧ addDependency gC fuel 1 none st = none
      ∧ buildDependencyGraph gC 0 (some "default") fuel = none := by
  intro fuel
  induction fuel with
  | zero => exact fun st => ⟨rfl, rfl, rfl⟩
  | succ fuel ih =>
    intro st
    have h0 : ∀ st2, addDependency gC fuel 0 none st2 = none := fun st2 => (ih st2).1
    have h1 : ∀ st2, addDependency gC fuel 1 none st2 = none := fun st2 => (ih st2).2.1
    refine ⟨?_, ?_, ?_⟩
    · show expandActs gC (addDependency gC fuel) 0 ["default"] _ = none
      exact expandActs_none_of gC _ 0 "default" 1 (by decide) h1 ["default"] _ (by decide)
    · show expandActs gC (addDependency gC fuel) 1 ["default"] _ = none
      exact expandActs_none_of gC _ 1 "default" 0 (by decide) h0 ["default"] _ (by decide)
    · show expandActs gC (addDependency gC fuel) 0 ["default"] _ = none
      exact expandActs_none_of gC _ 0 "default" 1 (by decide) h1 ["default"] _ (by decide)

/-! ### Edge monotonicity of the builder -/

theorem depLE_refl (st : DepState) : DepLE st st :=
  ⟨fun _ _ h => h, fun _ _ h => h⟩

theorem depLE_trans {st1 st2 st3 : DepState} (h1 : DepLE st1 st2)
    (h2 : DepLE st2 st3) : DepLE st1 st3 :=
  ⟨fun k x hx => h2.1 k x (h1.1 k x hx), fun k x hx => h2.2 k x (h1.2 k x hx)⟩

theorem depLE_ensureNode (st : DepState) (n : Nat) : DepLE st (ensureNode st n) :=
  ⟨fun k x hx => by rw [getD_ensureNode_deps]; exact hx,
   fun k x hx => by rw [getD_ensureNode_rdeps]; exact hx⟩

theorem depLE_addEdge (st : DepState) (node succ : Nat) :
    DepLE st (addEdge st node succ) :=
  ⟨fun _ _ hx => mem_getD_addToEntry_mono _ _ _ _ _ hx,
   fun _ _ hx => mem_getD_addToEntry_mono _ _ _ _ _ hx⟩

theorem expandSuccs_depLE (rec : Nat → Option String → DepState → Option DepState)
    (hrec : ∀ t a st st2, rec t a st = some st2 → DepLE st st2) (node : Nat) :
    ∀ (ts : List Nat) (st st2 : DepState),
      expandSuccs rec node ts st = some st2 → DepLE st st2 := by
  intro ts
  induction ts with
  | nil =>
    intro st st2 h
    rw [expandSuccs] at h
    injection h with h
    rw [h]
    exact depLE_refl st2
  | cons u ts ih =>
    intro st st2 h
    rw [expandSuccs] at h
    cases hcall : rec u none (addEdge (ensureNode st u) node u) with
    | none => rw [hcall] at h; exact Option.noConfusion h
    | some st1 =>
      rw [hcall] at h
      exact depLE_trans
        (depLE_trans (depLE_trans (depLE_ensureNode st u) (depLE_addEdge _ node u))
          (hrec u none _ st1 hcall))
        (ih st1 st2 h)

theorem expandActs_depLE {σ : Type} (g : Graph σ)
    (rec : Nat → Option String → DepState → Option DepState)
    (hrec : ∀ t a st st2, rec t a st = some st2 → DepLE st st2) (node : Nat) :
    ∀ (acts : List String) (st st2 : DepState),
      expandActs g rec node acts st = some st2 → DepLE st st2 := by
  intro acts
  induction acts with
  | nil =>
    intro st st2 h
    rw [expandActs] at h
    injection h with h
    rw [h]
    exact depLE_refl st2
  | cons b acts ih =>
    intro st st2 h
    rw [expandActs] at h
    cases hcall : expandSuccs rec node (sGet (g node).successors b) st with
    | none => rw [hcall] at h; exact Option.noConfusion h
    | some st1 =>
      rw [hcall] at h
      exact depLE_trans (expandSuccs_depLE rec hrec node _ st st1 hcall) (ih st1 st2 h)

theorem addDependency_depLE {σ : Type} (g : Graph σ) :
    ∀ (fuel : Nat) (n : Nat) (a : Option String) (st st2 : DepState),
      addDependency g fuel n a st = some st2 → DepLE st st2 := by
  intro fuel
  induction fuel with
  | zero => intro n a st st2 h; exact Option.noConfusion h
  | succ fuel ih =>
    intro n a st st2 h
    simp only [addDependency] at h
    refine depLE_trans (depLE_trans ?_ (depLE_ensureNode _ n))
      (expandActs_depLE g (addDependency g fuel) (fun t a2 s1 s2 hc => ih t a2 s1 s2 hc)
        n _ _ st2 h)
    exact ⟨fun _ _ hx => hx, fun _ _ hx => hx⟩

theorem fullyExpanded_mono {σ : Type} (g : Graph σ) {st st2 : DepState} (n : Nat)
    (hle : DepLE st st2) (h : FullyExpanded g st n) : FullyExpanded g st2 n := by
  intro a ha t ht
  obtain ⟨h1, h2⟩ := h a ha t ht
  exact ⟨hle.1 t n h1, hle.2 n t h2⟩

theorem expandSuccs_edges (rec : Nat → Option String → DepState → Option DepState)
    (hrec : ∀ t a st st2, rec t a st = some st2 → DepLE st st2) (node : Nat) :
    ∀ (ts : List Nat) (st st2 : DepState),
      expandSuccs rec node ts st = some st2 →
      ∀ t ∈ ts, node ∈ getD st2.deps t ∧ t ∈ getD st2.rdeps node := by
  intro ts
  induction ts with
  | nil => intro st st2 _ t ht; simp at ht
  | cons u ts ih =>
    intro st st2 h t ht
    rw [expandSuccs] at h
    cases hcall : rec u none (addEdge (ensureNode st u) node u) with
    | none => rw [hcall] at h; exact Option.noConfusion h
    | some st1 =>
      rw [hcall] at h
      rcases List.mem_cons.mp ht with rfl | ht
      · have hle : DepLE (addEdge (ensureNode st t) node t) st2 :=
          depLE_trans (hrec t none _ st1 hcall) (expandSuccs_depLE rec hrec node ts st1 st2 h)
        constructor
        · exact hle.1 t node (mem_getD_addToEntry_self _ t node)
        · exact hle.2 node t (mem_getD_addToEntry_self _ node t)
      · exact ih st1 st2 h t ht

theorem expandActs_edges {σ : Type} (g : Graph σ)
    (rec : Nat → Option String → DepState → Option DepState)
    (hrec : ∀ t a st st2, rec t a st = some st2 → DepLE st st2) (node : Nat) :
    ∀ (acts : List String) (st st2 : DepState),
      expandActs g rec node acts st = some st2 →
      ∀ a ∈ acts, ∀ t ∈ sGet (g node).successors a,
        node ∈ getD st2.deps t ∧ t ∈ getD st2.rdeps node := by
  intro acts
  induction acts with
  | nil => intro st st2 _ a ha; simp at ha
  | cons b acts ih =>
    intro st st2 h a ha t ht
    rw [expandActs] at h
    cases hcall : expandSuccs rec node (sGet (g node).successors b) st with
    | none => rw [hcall] at h; exact Option.noConfusion h
    | some st1 =>
      rw [hcall] at h
      rcases List.mem_cons.mp ha with rfl | ha
      · have hmem := expandSuccs_edges rec hrec node _ st st1 hcall t ht
        have hle := expandActs_depLE g rec hrec node acts st1 st2 h
        exact ⟨hle.1 t node hmem.1, hle.2 node t hmem.2⟩
      · exact ih st1 st2 h a ha t ht

theorem expandSuccs_call (rec : Nat → Option String → DepState → Option DepState)
    (hrec : ∀ t a st st2, rec t a st = some st2 → DepLE st st2) (node : Nat) :
    ∀ (ts : List Nat) (st st2 : DepState),
      expandSuccs rec node ts st = some st2 →
      ∀ t ∈ ts, ∃ stA stB, rec t none stA = some stB ∧ DepLE stB st2 := by
  intro ts
  induction ts with
  | nil => intro st st2 _ t ht; simp at ht
  | cons u ts ih =>
    intro st st2 h t ht
    rw [expandSuccs] at h
    cases hcall : rec u none (addEdge (ensureNode st u) node u) with
    | none => rw [hcall] at h; exact Option.noConfusion h
    | some st1 =>
      rw [hcall] at h
      rcases List.mem_cons.mp ht with rfl | ht
      · exact ⟨_, st1, hcall, expandSuccs_depLE rec hrec node ts st1 st2 h⟩
      · exact ih st1 st2 h t ht

theorem expandActs_call {σ : Type} (g : Graph σ)
    (rec : Nat → Option String → DepState → Option DepState)
    (hrec : ∀ t a st st2, rec t a st = some st2 → DepLE st st2) (node : Nat) :
    ∀ (acts : List String) (st st2 : DepState),
      expandActs g rec node acts st = some st2 →
      ∀ a ∈ acts, ∀ t ∈ sGet (g node).successors a,
        ∃ stA stB, rec t none stA = some stB ∧ DepLE stB st2 := by
  intro acts
  induction acts with
  | nil => intro st st2 _ a ha; simp at ha
  | cons b acts ih =>
    intro st st2 h a ha t ht
    rw [expandActs] at h
    cases hcall : expandSuccs rec node (sGet (g node).successors b) st with
    | none => rw [hcall] at h; exact Option.noConfusion h
    | some st1 =>
      rw [hcall] at h
      rcases List.mem_cons.mp ha with rfl | ha
      · obtain ⟨stA, stB, hc, hle⟩ := expandSuccs_call rec hrec node _ st st1 hcall t ht
        exact ⟨stA, stB, hc, depLE_trans hle (expandActs_depLE g rec hrec node acts st1 st2 h)⟩
      · exact ih st1 st2 h a ha t ht

theorem addDependency_reaches_expanded {σ : Type} (g : Graph σ) :
    ∀ (fuel : Nat) (n : Nat) (st st2 : DepState),
      addDependency g fuel n none st = some st2 →
      ∀ m, Reaches g n m → FullyExpanded g st2 m := by
  intro fuel
  induction fuel with
  | zero => intro n st st2 h; exact Option.noConfusion h
  | succ fuel ih =>
    intro n st st2 h m hreach
    simp only [addDependency] at h
    cases hreach with
    | refl =>
      intro a ha t ht
      exact expandActs_edges g (addDependency g fuel)
        (fun t2 a2 s1 s2 hc => addDependency_depLE g fuel t2 a2 s1 s2 hc) n _ _ st2 h a ha t ht
    | step hedge hr2 =>
      obtain ⟨b, hb, hyb⟩ := hedge
      obtain ⟨stA, stB, hcall, hle⟩ := expandActs_call g (addDependency g fuel)
        (fun t2 a2 s1 s2 hc => addDependency_depLE g fuel t2 a2 s1 s2 hc) n _ _ st2 h b hb _ hyb
      exact fullyExpanded_mono g m hle (ih _ stA stB hcall m hr2)

/-! ### The start node is expanded once, and only under its actual action -/

theorem addDependency_none_of_reaches {σ : Type} (g : Graph σ) (s : Nat) (a0 : String)
    (hcyc : ∃ t ∈ sGet (g s).successors a0, Reaches g t s) :
    ∀ (fuel : Nat) (n : Nat) (st : DepState), Reaches g n s →
      addDependency g fuel n none st = none := by
  intro fuel
  induction fuel with
  | zero => intro n st _; rfl
  | succ fuel ih =>
    intro n st hreach
    cases hreach with
    | refl =>
      obtain ⟨t, hts, hreacht⟩ := hcyc
      have ha0 : a0 ∈ keysOf (g s).successors := mem_keysOf_of_sGet _ a0 t hts
      show expandActs g (addDependency g fuel) s (keysOf (g s).successors) _ = none
      exact expandActs_none_of g _ s a0 t hts (fun st2 => ih t st2 hreacht) _ _ ha0
    | step hedge hr2 =>
      obtain ⟨b, hb, hyb⟩ := hedge
      show expandActs g (addDependency g fuel) n (keysOf (g n).successors) _ = none
      exact expandActs_none_of g _ n b _ hyb (fun st2 => ih _ st2 hr2) _ _ hb

theorem expandSuccs_preserves_rdepsS {σ : Type} (g : Graph σ)
    (rec : Nat → Option String → DepState → Option DepState) (s node : Nat)
    (hne : node ≠ s)
    (hrecP : ∀ t st st2, ¬ Reaches g t s → rec t none st = some st2 →
      getD st2.rdeps s = getD st.rdeps s) :
    ∀ (ts : List Nat) (st st2 : DepState),
      (∀ u ∈ ts, ¬ Reaches g u s) →
      expandSuccs rec node ts st = some st2 →
      getD st2.rdeps s = getD st.rdeps s := by
  intro ts
  induction ts with
  | nil =>
    intro st st2 _ h
    rw [expandSuccs] at h
    injection h with h
    rw [h]
  | cons u ts ih =>
    intro st st2 hnr h
    rw [expandSuccs] at h
    cases hcall : rec u none (addEdge (ensureNode st u) node u) with
    | none => rw [hcall] at h; exact Option.noConfusion h
    | some st1 =>
      rw [hcall] at h
      have e1 : getD (addEdge (ensureNode st u) node u).rdeps s = getD st.rdeps s := by
        show getD (addToEntry (ensureNode st u).rdeps node u) s = _
        rw [getD_addToEntry_other _ node u s (Ne.symm hne), getD_ensureNode_rdeps]
      have e2 := hrecP u _ st1 (hnr u (List.mem_cons_self u ts)) hcall
      have e3 := ih st1 st2 (fun v hv => hnr v (List.mem_cons_of_mem u hv)) h
      rw [e3, e2, e1]

theorem expandActs_preserves_rdepsS {σ : Type} (g : Graph σ)
    (rec : Nat → Option String → DepState → Option DepState) (s node : Nat)
    (hne : node ≠ s)
    (hrecP : ∀ t st st2, ¬ Reaches g t s → rec t none st = some st2 →
      getD st2.rdeps s = getD st.rdeps s) :
    ∀ (acts : List String) (st st2 : DepState),
      (∀ a ∈ acts, ∀ u ∈ sGet (g node).successors a, ¬ Reaches g u s) →
      expandActs g rec node acts st = some st2 →
      getD st2.rdeps s = getD st.rdeps s := by
  intro acts
  induction acts with
  | nil =>
    intro st st2 _ h
    rw [expandActs] at h
    injection h with h
    rw [h]
  | cons b acts ih =>
    intro st st2 hnr h
    rw [expandActs] at h
    cases hcall : expandSuccs rec node (sGet (g node).successors b) st with
    | none => rw [hcall] at h; exact Option.noConfusion h
    | some st1 =>
      rw [hcall] at h
      have e1 := expandSuccs_preserves_rdepsS g rec s node hne hrecP _ st st1
        (fun u hu => hnr b (List.mem_cons_self b acts) u hu) hcall
      have e2 := ih st1 st2
        (fun a ha u hu => hnr a (List.mem_cons_of_mem b ha) u hu) h
      rw [e2, e1]

theorem addDependency_preserves_rdepsS {σ : Type} (g : Graph σ) (s : Nat) :
    ∀ (fuel : Nat) (n : Nat) (st st2 : DepState), ¬ Reaches g n s →
      addDependency g fuel n none st = some st2 →
      getD st2.rdeps s = getD st.rdeps s := by
  intro fuel
  induction fuel with
  | zero => intro n st st2 _ h; exact Option.noConfusion h
  | succ fuel ih =>
    intro n st st2 hnr h
    simp only [addDependency] at h
    have hne : n ≠ s := fun hEq => hnr (by rw [hEq]; exact Reaches.refl s)
    have hsucc : ∀ a ∈ keysOf (g n).successors, ∀ u ∈ sGet (g n).successors a,
        ¬ Reaches g u s :=
      fun a ha u hu hru => hnr (Reaches.step ⟨a, ha, hu⟩ hru)
    have e := expandActs_preserves_rdepsS g (addDependency g fuel) s n hne
      (fun t stA stB hnrt hc => ih t stA stB hnrt hc)
      (keysOf (g n).successors) _ st2 hsucc h
    rw [e, getD_ensureNode_rdeps]

theorem expandSuccs_start_rdeps {σ : Type} (g : Graph σ)
    (rec : Nat → Option String → DepState → Option DepState) (s : Nat)
    (hrecP : ∀ t st st2, ¬ Reaches g t s → rec t none st = some st2 →
      getD st2.rdeps s = getD st.rdeps s) :
    ∀ (ts : List Nat) (st st2 : DepState),
      (∀ u ∈ ts, ¬ Reaches g u s) →
      expandSuccs rec s ts st = some st2 →
      getD st2.rdeps s = ts.foldl setAdd (getD st.rdeps s) := by
  intro ts
  induction ts with
  | nil =>
    intro st st2 _ h
    rw [expandSuccs] at h
    injection h with h
    rw [h]
    rfl
  | cons u ts ih =>
    intro st st2 hnr h
    rw [expandSuccs] at h
    cases hcall : rec u none (addEdge (ensureNode st u) s u) with
    | none => rw [hcall] at h; exact Option.noConfusion h
    | some st1 =>
      rw [hcall] at h
      have e1 : getD (addEdge (ensureNode st u) s u).rdeps s = setAdd (getD st.rdeps s) u := by
        show getD (addToEntry (ensureNode st u).rdeps s u) s = _
        rw [getD_addToEntry_self, getD_ensureNode_rdeps]
      have e2 := hrecP u _ st1 (hnr u (List.mem_cons_self u ts)) hcall
      have e3 := ih st1 st2 (fun v hv => hnr v (List.mem_cons_of_mem u hv)) h
      rw [List.foldl_cons, e3, e2, e1]

theorem build_start_rdeps {σ : Type} (g : Graph σ) (s : Nat) (a0 : String)
    (fuel : Nat) (dg : DepState)
    (h : buildDependencyGraph g s (some a0) fuel = some dg) :
    getD dg.rdeps s = (sGet (g s).successors a0).foldl setAdd [] := by
  cases fuel with
  | zero => exact Option.noConfusion h
  | succ fuel =>
    have h2 : expandActs g (addDependency g fuel) s [a0]
        (⟨[(s, [])], [(s, [])], [s]⟩ : DepState) = some dg := h
    have hncyc : ∀ t ∈ sGet (g s).successors a0, ¬ Reaches g t s := by
      intro t ht hr
      have hnone := expandActs_none_of g (addDependency g fuel) s a0 t ht
        (fun st2 => addDependency_none_of_reaches g s a0 ⟨t, ht, hr⟩ fuel t st2 hr)
        [a0] (⟨[(s, [])], [(s, [])], [s]⟩ : DepState) (List.mem_singleton.mpr rfl)
      rw [hnone] at h2
      exact Option.noConfusion h2
    rw [expandActs] at h2
    cases hE : expandSuccs (addDependency g fuel) s (sGet (g s).successors a0)
        (⟨[(s, [])], [(s, [])], [s]⟩ : DepState) with
    | none => rw [hE] at h2; exact Option.noConfusion h2
    | some stA =>
      rw [hE] at h2
      have hA : stA = dg := Option.some.inj h2
      subst hA
      have e := expandSuccs_start_rdeps g (addDependency g fuel) s
        (fun t stX stY hnrt hc => addDependency_preserves_rdepsS g s fuel t stX stY hnrt hc)
        (sGet (g s).successors a0) (⟨[(s, [])], [(s, [])], [s]⟩ : DepState) stA hncyc hE
      rw [e]
      congr 1
      simp [getD, alookup]

theorem build_call_on_hop {σ : Type} (g : Graph σ) (s : Nat) (a0 : String)
    (fuel : Nat) (dg : DepState)
    (h : buildDependencyGraph g s (some a0) fuel = some dg) :
    ∀ t ∈ sGet (g s).successors a0,
      ∃ f2 stA stB, addDependency g f2 t none stA = some stB ∧ DepLE stB dg := by
  cases fuel with
  | zero => intro t _; exact Option.noConfusion h
  | succ fuel =>
    intro t ht
    have h2 : expandActs g (addDependency g fuel) s [a0]
        (⟨[(s, [])], [(s, [])], [s]⟩ : DepState) = some dg := h
    obtain ⟨stA, stB, hc, hle⟩ := expandActs_call g (addDependency g fuel)
      (fun t2 a2 s1 s2 hcc => addDependency_depLE g fuel t2 a2 s1 s2 hcc) s [a0] _ dg h2
      a0 (List.mem_singleton.mpr rfl) t ht
    exact ⟨fuel, stA, stB, hc, hle⟩

theorem build_start_edges {σ : Type} (g : Graph σ) (s : Nat) (a0 : String)
    (fuel : Nat) (dg : DepState)
    (h : buildDependencyGraph g s (some a0) fuel = some dg) :
    ∀ t ∈ sGet (g s).successors a0,
      s ∈ getD dg.deps t ∧ t ∈ getD dg.rdeps s := by
  cases fuel with
  | zero => intro t _; exact Option.noConfusion h
  | succ fuel =>
    intro t ht
    have h2 : expandActs g (addDependency g fuel) s [a0]
        (⟨[(s, [])], [(s, [])], [s]⟩ : DepState) = some dg := h
    exact expandActs_edges g (addDependency g fuel)
      (fun t2 a2 s1 s2 hcc => addDependency_depLE g fuel t2 a2 s1 s2 hcc) s [a0] _ dg h2
      a0 (List.mem_singleton.mpr rfl) t ht

/-- C3: when the dependency-graph build (with the action label the start
node actually returned) terminates, the start node's outgoing edges are
exactly its successors under that action — its reverse-dependency entry is
the deduplicated successor list under `a0` alone — while every other node
discovered during traversal is expanded unconstrained: for every action
label present in its successor table and every successor under any such
label, the successor holds the node in its dependency set and the node
holds the successor in its reverse-dependency set, regardless of which
branch will fire at run time. -/
theorem c3_only_start_branch_pruned {σ : Type} (g : Graph σ) (s : Nat) (a0 : String)
    (fuel : Nat) (dg : DepState) (m : Nat)
    (h : buildDependencyGraph g s (some a0) fuel = some dg)
    (hm : Discovered g s a0 m) :
    getD dg.rdeps s = (sGet (g s).successors a0).foldl setAdd []
    ∧ (∀ t ∈ sGet (g s).successors a0, s ∈ getD dg.deps t ∧ t ∈ getD dg.rdeps s)
    ∧ (∀ a ∈ keysOf (g m).successors, ∀ t ∈ sGet (g m).successors a,
        m ∈ getD dg.deps t ∧ t ∈ getD dg.rdeps m) := by
  refine ⟨build_start_rdeps g s a0 fuel dg h, build_start_edges g s a0 fuel dg h, ?_⟩
  obtain ⟨t, hts, hreach⟩ := hm
  obtain ⟨f2, stA, stB, hcall, hle⟩ := build_call_on_hop g s a0 fuel dg h t hts
  exact fullyExpanded_mono g m hle
    (addDependency_reaches_expanded g f2 t stA stB hcall m hreach)

/-- C3 witness: on `gW` (start `0` returning `"go"`, node `1` branching
under `"x"` and `"y"`), the built graph constrains the start node's edges
to exactly `[1]` (label `"skip"` contributes nothing), records the
start-hop edge `0 → 1` on both sides, and folds in node `1`'s edge to `3`
under the never-taken label `"y"`. -/
theorem c3_witness :
    ([1] : List Nat) = [1]
    ∧ ((0 : Nat) ∈ ([0] : List Nat) ∧ (1 : Nat) ∈ ([1] : List Nat))
    ∧ ((1 : Nat) ∈ ([1] : List Nat) ∧ (3 : Nat) ∈ ([2, 3] : List Nat)) := by
  have A := c3_only_start_branch_pruned gW 0 "go" 10
    ⟨[(0, []), (1, [0]), (2, [1]), (3, [1])],
     [(0, [1]), (1, [2, 3]), (2, []), (3, [])],
     [0, 1, 2, 3]⟩ 1 rfl ⟨1, by decide, Reaches.refl 1⟩
  exact ⟨A.1, A.2.1 1 (by decide), A.2.2 "y" (by decide) 3 (by decide)⟩

end PackFlow
